import Mathlib

/-! Overview: Verification of `check_import_order.py`

A shallow embedding of the import-order checker. Python strings are
`String`, file texts are split into lines (`readlines`), the runtime
module-resolution machinery (`__import__` + `repr`) is abstracted as an
oracle `Env` mapping a module name to its repr string (`none` models
`ImportError`). Exceptions (`ValueError` from module-name extraction,
`IndexError` from the sort key) are modelled with `Option`.
-/

namespace CheckImportOrder

/-! Part: Character-level string utilities

Python's `str.split(sep)`, `str.join`, `str.startswith`, `str.strip`,
`str.split()` (whitespace), substring test (`in`) and lexicographic
string comparison, modelled on `List Char` for easy reasoning.
-/

/-- Python `s.split(sep)` for a one-character separator: splits at every
occurrence, keeping empty pieces (`"".split(sep) == ['']`). -/
def splitChar (sep : Char) : List Char → List (List Char)
  | [] => [[]]
  | c :: rest =>
    if c = sep then [] :: splitChar sep rest
    else
      match splitChar sep rest with
      | [] => [[c]]
      | p :: ps => (c :: p) :: ps

/-- Python `sep.join(pieces)` at the character level. -/
def joinChars (sep : List Char) : List (List Char) → List Char
  | [] => []
  | [x] => x
  | x :: xs => x ++ sep ++ joinChars sep xs

/-- Python `str.startswith` as a prefix test on characters. -/
def isPrefixB : List Char → List Char → Bool
  | [], _ => true
  | _ :: _, [] => false
  | a :: as, b :: bs => a == b && isPrefixB as bs

/-- Python `needle in haystack` (substring containment). -/
def isInfixB (needle : List Char) : List Char → Bool
  | [] => needle.isEmpty
  | c :: rest => isPrefixB needle (c :: rest) || isInfixB needle rest

/-- Python `str.strip()`: drop leading and trailing whitespace. -/
def stripChars (l : List Char) : List Char :=
  ((l.dropWhile Char.isWhitespace).reverse.dropWhile Char.isWhitespace).reverse

/-- Python `str.split()` with no argument: split on runs of whitespace,
discarding empty pieces. `cur` accumulates the current word reversed. -/
def splitWsAux : List Char → List Char → List (List Char)
  | [], cur => if cur.isEmpty then [] else [cur.reverse]
  | c :: rest, cur =>
    if c.isWhitespace then
      if cur.isEmpty then splitWsAux rest [] else cur.reverse :: splitWsAux rest []
    else splitWsAux rest (c :: cur)

/-- Python lexicographic string comparison `<=`, by code point. -/
def listCharLe : List Char → List Char → Bool
  | [], _ => true
  | _ :: _, [] => false
  | a :: as, b :: bs => if a < b then true else if b < a then false else listCharLe as bs

/-- Python `s.split(sep)` on `String`s (one-character separator). -/
def splitStr (sep : Char) (s : String) : List String :=
  (splitChar sep s.data).map (fun p => String.mk p)

/-- A file's text as the list of its lines, as `readlines` produces them
(here without the trailing newline characters; a line consisting of a
lone `'\n'` in Python is the line `""` here). -/
def splitLines (s : String) : List String := splitStr '\n' s

/-- Python `sep.join(pieces)` on `String`s. -/
def joinLines (sep : String) (l : List String) : String :=
  String.mk (joinChars sep.data (l.map String.data))

/-- Python `str.startswith` on `String`s. -/
def strStartsWith (s pre : String) : Bool := isPrefixB pre.data s.data

/-- Python `str.strip()` on `String`s. -/
def pyStrip (s : String) : String := String.mk (stripChars s.data)

/-- Python `str.split()` (whitespace split) on `String`s. -/
def pySplitWs (s : String) : List String :=
  (splitWsAux s.data []).map (fun p => String.mk p)

/-- Python `needle in haystack` on `String`s. -/
def strHasSub (needle hay : String) : Bool := isInfixB needle.data hay.data

/-! Part: Data model -/

/-- The three import categories. `loc` stands for the `'local'` key. -/
inductive Category : Type
  | standard
  | third_party
  | loc
deriving DecidableEq, Repr

/-- An override configuration: the three lists of module names
(the `override` dict handed to the classifier). `loc` is `'local'`. -/
structure Override : Type where
  standard : List String
  third_party : List String
  loc : List String
deriving DecidableEq, Repr

/-- The constant `EMPTY_OVERRIDE = {'standard': [], 'third_party': [], 'local': []}`. -/
def EMPTY_OVERRIDE : Override := ⟨[], [], []⟩

/-- The runtime module-resolution oracle: `env m = some r` models
`__import__(m)` succeeding with `repr(module) = r`; `none` models
`ImportError`. -/
def Env : Type := String → Option String

/-- A Python value stored under a category key of the grouped-imports
dict: a list of statement strings while grouping, rebound to a plain
string by `get_ordered_imports`. -/
inductive PyVal : Type
  | strs (l : List String)
  | str (s : String)
deriving DecidableEq, Repr

/-- The grouped-imports dict. A field is `none` when the key is absent
(the `defaultdict` never received that category). `loc` is `'local'`. -/
structure GroupedImports : Type where
  standard : Option PyVal
  third_party : Option PyVal
  loc : Option PyVal
deriving DecidableEq, Repr

/-- The three category lists accumulated by `construct_import_dict`
before packaging into the `defaultdict` view. -/
structure ImportLists : Type where
  standard : List String
  third_party : List String
  loc : List String
deriving DecidableEq, Repr

/-! Part: The embedded program -/

/-- Function `_sanitize_cmd_line_opt` (lines 47-49): split a comma-separated
option string and strip each piece. -/
def sanitize_cmd_line_opt (cmd_line_opt : String) : List String :=
  (splitStr ',' cmd_line_opt).map pyStrip

/-- The override dict built in `main` (lines 57-61) from the three
command-line option strings. Note: line 60 reads `clargs.third_party`
for the `'local'` slot; `localOpt` is never read. -/
def cli_override (standard third_party localOpt : String) : Override :=
  { standard := sanitize_cmd_line_opt standard
    third_party := sanitize_cmd_line_opt third_party
    loc := sanitize_cmd_line_opt third_party }

/-- The characters of the regex class `[A-Za-z_0-9\.]`. -/
def isModChar (c : Char) : Bool :=
  c.isAlpha || c.isDigit || c == '_' || c == '.'

/-- Whether `.*$` (no `re.MULTILINE`) can match the remainder: true iff
the remainder contains no `'\n'`, or its only `'\n'` is its final
character (where `$` matches just before a trailing newline). -/
def tailMatchable (l : List Char) : Bool :=
  !l.contains '\n' || (l.getLast? == some '\n' && !l.dropLast.contains '\n')

/-- Function `get_module_name_from_import` (lines 246-262):
`re.search(r'^(from|import) (?P<module>[A-Za-z_0-9\.]+).*$', line)`,
returning the captured module name, or `none` for the `ValueError`. -/
def get_module_name_from_import (imprt_line : String) : Option String :=
  let afterKw : Option (List Char) :=
    if strStartsWith imprt_line "from " then some (imprt_line.data.drop 5)
    else if strStartsWith imprt_line "import " then some (imprt_line.data.drop 7)
    else none
  match afterKw with
  | none => none
  | some rest =>
    let m := rest.takeWhile isModChar
    if m.isEmpty then none
    else if tailMatchable (rest.drop m.length) then some (String.mk m)
    else none

/-- Function `is_standard_module` (lines 171-196). The `module_repr` checks use
the oracle; `load_module` returning `None` (ImportError) yields `False`. -/
def is_standard_module (module : String) (override : Option Override) (env : Env) : Bool :=
  let ov := override.getD EMPTY_OVERRIDE
  if ov.standard.contains module then true
  else if ov.third_party.contains module || ov.loc.contains module then false
  else
    match env module with
    | none => false
    | some module_repr =>
      !strHasSub "site-packages" module_repr &&
        (strHasSub "usr/lib/python" module_repr ||
         strHasSub "usr/lib64/python" module_repr ||
         strHasSub "built-in" module_repr)

/-- Function `is_third_party_module` (lines 199-222). -/
def is_third_party_module (module : String) (override : Option Override) (env : Env) : Bool :=
  let ov := override.getD EMPTY_OVERRIDE
  if ov.third_party.contains module then true
  else if ov.standard.contains module || ov.loc.contains module then false
  else
    match env module with
    | none => false
    | some module_repr =>
      strHasSub "site-packages" module_repr &&
        (strHasSub "usr/lib/python" module_repr ||
         strHasSub "usr/lib64/python" module_repr)

/-- The category decision chain of `construct_import_dict`
(lines 88-95): the `'.'` sentinel short-circuits to `'local'` before
either classifier is consulted. -/
def categorize (mod_name : String) (override : Option Override) (env : Env) : Category :=
  if mod_name = "." then Category.loc
  else if is_standard_module mod_name override env then Category.standard
  else if is_third_party_module mod_name override env then Category.third_party
  else Category.loc

/-- Append a statement to its category bucket (`final_imports[cat] += [line]`). -/
def addLine (acc : ImportLists) (c : Category) (line : String) : ImportLists :=
  match c with
  | Category.standard => { acc with standard := acc.standard ++ [line] }
  | Category.third_party => { acc with third_party := acc.third_party ++ [line] }
  | Category.loc => { acc with loc := acc.loc ++ [line] }

/-- The loop of `construct_import_dict` (lines 85-95). A `ValueError`
from `get_module_name_from_import` aborts everything: `none`. -/
def construct_aux (override : Option Override) (env : Env) :
    List String → ImportLists → Option ImportLists
  | [], acc => some acc
  | line :: rest, acc =>
    match get_module_name_from_import line with
    | none => none
    | some m => construct_aux override env rest (addLine acc (categorize m override env) line)

/-- A category list as the `defaultdict` stores it: the key is present
iff at least one statement was appended. -/
def optOf : List String → Option PyVal
  | [] => none
  | l => some (PyVal.strs l)

/-- Function `construct_import_dict` (lines 71-97). -/
def construct_import_dict (import_lines : List String) (override : Option Override)
    (env : Env) : Option GroupedImports :=
  (construct_aux override env import_lines ⟨[], [], []⟩).map
    (fun il => ⟨optOf il.standard, optOf il.third_party, optOf il.loc⟩)

/-- Python `str.lower()`: lower-case each character (`String.toLower`,
written out on the character list). -/
def pyLower (s : String) : String := String.mk (s.data.map Char.toLower)

/-- The sort key of line 152, `lambda k: k.lower().split()[1]`, with the
`IndexError` (fewer than two whitespace-separated tokens) as `none`. -/
def sortKey (k : String) : Option String := (pySplitWs (pyLower k))[1]?

/-- Total version of the sort key, agreeing with `sortKey` wherever the
latter succeeds; `get_ordered_imports` only uses it on such inputs. -/
def sortKeyD (k : String) : String := (sortKey k).getD ""

/-- The comparison `sorted` uses on line 151-152: keys compared as
Python strings (lexicographically by code point). -/
def stmtRel (a b : String) : Prop := listCharLe (sortKeyD a).data (sortKeyD b).data = true

instance : DecidableRel stmtRel := fun a b => inferInstanceAs (Decidable (_ = true))

/-- Python `sorted(l, key=lambda k: k.lower().split()[1])`. CPython's sort is
stable, and every stable sort under the same key comparison produces the
same list, so insertion sort computes exactly `sorted`'s output. The
result is `none` when some key raises `IndexError`. -/
def pySorted (l : List String) : Option (List String) :=
  if l.all (fun s => (sortKey s).isSome) then some (l.insertionSort stmtRel)
  else none

/-- One iteration of the loop on lines 149-154: the value stored back
under a category key. An absent key is set to `''`; a present list is
replaced by the newline-join of its sorted statements. A key already
holding a string `s` would be `sorted` character by character: every
single-character string has fewer than two tokens, so any nonempty `s`
raises `IndexError`, while `''` sorts to `[]` and joins to `''`. -/
def processVal : Option PyVal → Option String
  | none => some ""
  | some (PyVal.strs l) => (pySorted l).map (fun sl => joinLines "\n" sl)
  | some (PyVal.str s) => if s = "" then some "" else none

/-- Function `get_ordered_imports` (lines 131-158). The function mutates its
argument (each category key is rebound to a string) and returns the
blank-line-joined concatenation of the nonempty blocks; we return the
final dict state together with the returned string, `none` modelling an
uncaught `IndexError`. -/
def get_ordered_imports (grouped_imports : GroupedImports) :
    Option (GroupedImports × String) :=
  (processVal grouped_imports.standard).bind fun s =>
    (processVal grouped_imports.third_party).bind fun t =>
      (processVal grouped_imports.loc).bind fun l =>
        some (⟨some (PyVal.str s), some (PyVal.str t), some (PyVal.str l)⟩,
          joinLines "\n\n" ([s, t, l].filter (fun b => b != "")))

/-- The line test of lines 232-236, with Python's `and`/`or`
precedence: `import`-prefixed, or `from`-prefixed but not
`from __future__`-prefixed. -/
def isImportLine (line : String) : Bool :=
  strStartsWith line "import" ||
    (strStartsWith line "from" && !strStartsWith line "from __future__")

/-- The loop of `get_import_lines` (lines 228-241): `il` is
`import_list`, `sl` is `sub_list` (buffered blank separators, flushed
when a further import line arrives). -/
def extractAux : List String → List String → List String → List String
  | [], il, _ => il
  | line :: rest, il, sl =>
    if isImportLine line then extractAux rest (il ++ sl ++ [pyStrip line]) []
    else if line = "" && !il.isEmpty then extractAux rest il (sl ++ [""])
    else extractAux rest il sl

/-- Function `get_import_lines` (lines 225-243), after `readlines`: the
reconstructed raw block and the statement list (blanks removed). -/
def get_import_lines (lines : List String) : String × List String :=
  let import_list := extractAux lines [] []
  (joinLines "\n" import_list, import_list.filter (fun i => i != ""))

/-- Function `verify_imports_order` (lines 100-128): `difflib.unified_diff`
emits at least one line exactly when the two line sequences differ, so
the result is `0` iff the split texts coincide. -/
def verify_imports_order (actual expected : String) : Nat :=
  if splitLines actual = splitLines expected then 0 else 1

/-- The per-file pipeline of `main` (lines 56-64): extract, group,
order. `none` models an uncaught exception aborting the run. -/
def run_pipeline (text : String) (override : Option Override) (env : Env) :
    Option String :=
  let p := get_import_lines (splitLines text)
  (construct_import_dict p.2 override env).bind fun g =>
    (get_ordered_imports g).map (fun r => r.2)

/-! Part: Specification-side helper definitions (used to state and prove
properties of the embedded functions) -/

/-- Whether every statement stored under a category key is a single line
(newline-free), as the Import Statements of the data model are. -/
def pvNoNL : Option PyVal → Bool
  | some (PyVal.strs l) => l.all (fun s => !s.data.contains '\n')
  | _ => true

/-- The line sequence of a canonically ordered block: the statement
groups in order, separated by single blank lines. -/
def weave : List (List String) → List String
  | [] => []
  | [g] => g
  | g :: gs => g ++ "" :: weave gs

/-- The category a statement line is routed to by `construct_import_dict`
(`none` when module-name extraction raises). -/
def lineCat (ov : Option Override) (env : Env) (s : String) : Option Category :=
  (get_module_name_from_import s).map (fun m => categorize m ov env)

/-- The sublist of statements routed to category `c`. -/
def pick (ov : Option Override) (env : Env) (c : Category) (stmts : List String) :
    List String :=
  stmts.filter (fun s => decide (lineCat ov env s = some c))

/-! Part: Lemmas: prefixes -/

theorem isPrefixB_append (p t : List Char) : isPrefixB p (p ++ t) = true := by
  induction p with
  | nil => rfl
  | cons c cs ih => simp [isPrefixB, ih]

theorem exists_of_isPrefixB {p d : List Char} (h : isPrefixB p d = true) :
    ∃ t, d = p ++ t := by
  induction p generalizing d with
  | nil => exact ⟨d, rfl⟩
  | cons c cs ih =>
    cases d with
    | nil => simp [isPrefixB] at h
    | cons b bs =>
      simp only [isPrefixB, Bool.and_eq_true, beq_iff_eq] at h
      obtain ⟨rfl, h2⟩ := h
      obtain ⟨t, rfl⟩ := ih h2
      exact ⟨t, rfl⟩

theorem isPrefixB_of_append {p r x d : List Char} (h : isPrefixB p r = true)
    (hd : r ++ x = d) : isPrefixB p d = true := by
  obtain ⟨t, rfl⟩ := exists_of_isPrefixB h
  rw [← hd, List.append_assoc]
  exact isPrefixB_append p (t ++ x)

/-! Part: Lemmas: splitting and joining -/

theorem splitChar_ne_nil (sep : Char) (d : List Char) : splitChar sep d ≠ [] := by
  induction d with
  | nil => simp [splitChar]
  | cons c rest ih =>
    by_cases h : c = sep
    · simp [splitChar, h]
    · simp only [splitChar, if_neg h]
      cases hs : splitChar sep rest with
      | nil => simp
      | cons p ps => simp

theorem not_mem_of_mem_splitChar {sep : Char} {d : List Char} :
    ∀ {p : List Char}, p ∈ splitChar sep d → sep ∉ p := by
  induction d with
  | nil =>
    intro p hp
    simp [splitChar] at hp
    simp [hp]
  | cons c rest ih =>
    intro p hp
    by_cases h : c = sep
    · simp only [splitChar, if_pos h, List.mem_cons] at hp
      rcases hp with rfl | hp
      · simp
      · exact ih hp
    · simp only [splitChar, if_neg h] at hp
      cases hs : splitChar sep rest with
      | nil => exact absurd hs (splitChar_ne_nil sep rest)
      | cons q qs =>
        rw [hs] at hp
        rcases List.mem_cons.mp hp with rfl | hp
        · intro hmem
          rcases List.mem_cons.mp hmem with rfl | hmem
          · exact h rfl
          · exact ih (hs ▸ List.mem_cons_self q qs) hmem
        · exact ih (hs ▸ List.mem_cons_of_mem q hp)

theorem splitChar_of_not_mem {sep : Char} {d : List Char} (h : sep ∉ d) :
    splitChar sep d = [d] := by
  induction d with
  | nil => rfl
  | cons c rest ih =>
    have hc : ¬ c = sep := fun he => h (he ▸ List.mem_cons_self c rest)
    have hrest : sep ∉ rest := fun hm => h (List.mem_cons_of_mem c hm)
    simp only [splitChar, if_neg hc, ih hrest]

theorem splitChar_append_cons {sep : Char} {p t : List Char} (hp : sep ∉ p) :
    splitChar sep (p ++ sep :: t) = p :: splitChar sep t := by
  induction p with
  | nil => simp [splitChar]
  | cons c cs ih =>
    have hc : ¬ c = sep := fun he => hp (he ▸ List.mem_cons_self c cs)
    have hcs : sep ∉ cs := fun hm => hp (List.mem_cons_of_mem c hm)
    simp only [List.cons_append, splitChar, if_neg hc, List.append_eq, ih hcs]

theorem joinChars_cons (sep p : List Char) {ps : List (List Char)} (h : ps ≠ []) :
    joinChars sep (p :: ps) = p ++ sep ++ joinChars sep ps := by
  cases ps with
  | nil => exact absurd rfl h
  | cons q qs => rfl

theorem splitChar_joinChars {sep : Char} :
    ∀ {pieces : List (List Char)}, pieces ≠ [] → (∀ p ∈ pieces, sep ∉ p) →
      splitChar sep (joinChars [sep] pieces) = pieces := by
  intro pieces
  induction pieces with
  | nil => intro hne; exact absurd rfl hne
  | cons p ps ih =>
    intro _ hsep
    cases ps with
    | nil => exact splitChar_of_not_mem (hsep p (List.mem_cons_self p []))
    | cons q qs =>
      rw [joinChars_cons [sep] p (by simp), List.append_assoc, List.singleton_append,
        splitChar_append_cons (hsep p (List.mem_cons_self p _)),
        ih (by simp) (fun x hx => hsep x (List.mem_cons_of_mem p hx))]

/-! Part: Lemmas: stripping -/

theorem head?_dropWhile_false {p : α → Bool} {l : List α} {c : α}
    (h : (l.dropWhile p).head? = some c) : p c = false := by
  induction l with
  | nil => simp [List.dropWhile] at h
  | cons a as ih =>
    by_cases ha : p a
    · rw [List.dropWhile_cons, if_pos ha] at h
      exact ih h
    · rw [List.dropWhile_cons, if_neg ha] at h
      cases h
      exact Bool.of_not_eq_true ha

theorem dropWhile_eq_self_of_head {p : α → Bool} {l : List α}
    (h : ∀ c, l.head? = some c → p c = false) : l.dropWhile p = l := by
  cases l with
  | nil => rfl
  | cons a as =>
    rw [List.dropWhile_cons, if_neg]
    simp [h a rfl]

theorem stripChars_getLast_not_ws {l : List Char} {c : Char}
    (h : (stripChars l).getLast? = some c) : c.isWhitespace = false := by
  rw [stripChars, List.getLast?_reverse] at h
  exact head?_dropWhile_false h

theorem stripChars_head_not_ws {l : List Char} {c : Char}
    (h : (stripChars l).head? = some c) : c.isWhitespace = false := by
  rw [stripChars, List.head?_reverse] at h
  set R := (l.dropWhile Char.isWhitespace).reverse with hR
  have hsplit : R.takeWhile Char.isWhitespace ++ R.dropWhile Char.isWhitespace = R :=
    List.takeWhile_append_dropWhile _ _
  have hlast : R.getLast? = some c := by
    rw [← hsplit, List.getLast?_append, h]
    rfl
  rw [hR, List.getLast?_reverse] at hlast
  exact head?_dropWhile_false hlast

theorem stripChars_eq_self {l : List Char}
    (h1 : ∀ c, l.head? = some c → c.isWhitespace = false)
    (h2 : ∀ c, l.getLast? = some c → c.isWhitespace = false) : stripChars l = l := by
  rw [stripChars, dropWhile_eq_self_of_head h1,
    dropWhile_eq_self_of_head (fun c hc => h2 c (by rwa [List.head?_reverse] at hc)),
    List.reverse_reverse]

theorem pyStrip_pyStrip (l : String) : pyStrip (pyStrip l) = pyStrip l := by
  show String.mk (stripChars (stripChars l.data)) = String.mk (stripChars l.data)
  rw [stripChars_eq_self (fun c hc => stripChars_head_not_ws hc)
    (fun c hc => stripChars_getLast_not_ws hc)]

theorem mem_of_mem_stripChars {l : List Char} {c : Char} (h : c ∈ stripChars l) : c ∈ l := by
  rw [stripChars, List.mem_reverse] at h
  have h2 := (List.dropWhile_sublist Char.isWhitespace).subset h
  rw [List.mem_reverse] at h2
  exact (List.dropWhile_sublist Char.isWhitespace).subset h2

theorem mem_of_getLast?_eq {α : Type _} {l : List α} {c : α} (h : l.getLast? = some c) :
    c ∈ l := by
  rw [← List.head?_reverse] at h
  rw [← List.mem_reverse]
  exact List.mem_of_mem_head? (Option.mem_def.mpr h)

theorem strStartsWith_pyStrip {l pre : String} (hne : pre.data ≠ [])
    (hws : ∀ c ∈ pre.data, c.isWhitespace = false)
    (h : strStartsWith l pre = true) : strStartsWith (pyStrip l) pre = true := by
  obtain ⟨t, hd⟩ := exists_of_isPrefixB h
  show isPrefixB pre.data (stripChars l.data) = true
  rw [hd, stripChars]
  have h1 : (pre.data ++ t).dropWhile Char.isWhitespace = pre.data ++ t := by
    apply dropWhile_eq_self_of_head
    intro c hc
    rw [List.head?_append_of_ne_nil pre.data hne] at hc
    exact hws c (List.mem_of_mem_head? (Option.mem_def.mpr hc))
  rw [h1, List.reverse_append, List.dropWhile_append]
  by_cases he : (t.reverse.dropWhile Char.isWhitespace).isEmpty
  · rw [if_pos he]
    have h2 : pre.data.reverse.dropWhile Char.isWhitespace = pre.data.reverse := by
      apply dropWhile_eq_self_of_head
      intro c hc
      rw [List.head?_reverse] at hc
      exact hws c (mem_of_getLast?_eq hc)
    rw [h2, List.reverse_reverse]
    simpa using isPrefixB_append pre.data []
  · rw [if_neg he, List.reverse_append, List.reverse_reverse]
    exact isPrefixB_append pre.data _

theorem strStartsWith_of_pyStrip {l pre : String}
    (hl : ∀ c, l.data.head? = some c → c.isWhitespace = false)
    (h : strStartsWith (pyStrip l) pre = true) : strStartsWith l pre = true := by
  have h1 : l.data.dropWhile Char.isWhitespace = l.data := dropWhile_eq_self_of_head hl
  have hsplit : stripChars l.data ++ (l.data.reverse.takeWhile Char.isWhitespace).reverse
      = l.data := by
    rw [stripChars, h1, ← List.reverse_append, List.takeWhile_append_dropWhile,
      List.reverse_reverse]
  exact isPrefixB_of_append h hsplit

theorem head_not_ws_of_import {l : String} (h : isImportLine l = true) :
    ∀ c, l.data.head? = some c → c.isWhitespace = false := by
  intro c hc
  have : c = 'i' ∨ c = 'f' := by
    unfold isImportLine at h
    rcases Bool.or_eq_true_iff.mp h with h1 | h1
    · obtain ⟨t, hd⟩ := exists_of_isPrefixB h1
      rw [hd] at hc
      exact Or.inl (by cases hc; rfl)
    · obtain ⟨t, hd⟩ := exists_of_isPrefixB (Bool.and_eq_true_iff.mp h1).1
      rw [hd] at hc
      exact Or.inr (by cases hc; rfl)
  rcases this with rfl | rfl <;> rfl

theorem isImportLine_pyStrip {l : String} (h : isImportLine l = true) :
    isImportLine (pyStrip l) = true := by
  unfold isImportLine at h ⊢
  rcases Bool.or_eq_true_iff.mp h with h1 | h1
  · exact Bool.or_eq_true_iff.mpr (Or.inl
      (strStartsWith_pyStrip (by decide) (by decide) h1))
  · obtain ⟨h2, h3⟩ := Bool.and_eq_true_iff.mp h1
    apply Bool.or_eq_true_iff.mpr
    right
    apply Bool.and_eq_true_iff.mpr
    constructor
    · exact strStartsWith_pyStrip (by decide) (by decide) h2
    · rw [Bool.not_eq_true'] at h3 ⊢
      by_contra hcon
      have h4 : strStartsWith (pyStrip l) "from __future__" = true := by
        revert hcon
        cases strStartsWith (pyStrip l) "from __future__" <;> simp
      have h5 := strStartsWith_of_pyStrip (head_not_ws_of_import (by
        unfold isImportLine
        exact Bool.or_eq_true_iff.mpr (Or.inr h1))) h4
      rw [h5] at h3
      cases h3

theorem pyStrip_ne_empty_of_import {l : String} (h : isImportLine l = true) :
    pyStrip l ≠ "" := by
  intro he
  have h2 := isImportLine_pyStrip h
  rw [he] at h2
  cases h2

/-! Part: Lemmas: the extractor -/

theorem extractAux_filter (lines : List String) :
    ∀ (il sl : List String), (∀ x ∈ sl, x = "") →
      (extractAux lines il sl).filter (fun i => i != "") =
        il.filter (fun i => i != "") ++ (lines.filter isImportLine).map pyStrip := by
  induction lines with
  | nil => intro il sl _; simp [extractAux]
  | cons l rest ih =>
    intro il sl hsl
    cases hl : isImportLine l with
    | true =>
      rw [show extractAux (l :: rest) il sl = extractAux rest (il ++ sl ++ [pyStrip l]) []
        by simp [extractAux, hl]]
      rw [ih _ [] (by simp), List.filter_append, List.filter_append]
      have hsl0 : sl.filter (fun i => i != "") = [] := by
        rw [List.filter_eq_nil_iff]
        intro a ha
        simp [hsl a ha]
      have hstrip : [pyStrip l].filter (fun i => i != "") = [pyStrip l] := by
        simp [pyStrip_ne_empty_of_import hl]
      rw [hsl0, hstrip, List.filter_cons, if_pos (by simp [hl])]
      simp
    | false =>
      have hrw : List.filter isImportLine (l :: rest) = List.filter isImportLine rest := by
        rw [List.filter_cons, if_neg (by simp [hl])]
      cases hb : (decide (l = "") && !il.isEmpty) with
      | true =>
        rw [show extractAux (l :: rest) il sl = extractAux rest il (sl ++ [""])
          by simp [extractAux, hl, hb]]
        rw [ih il (sl ++ [""]) ?_, hrw]
        intro x hx
        rcases List.mem_append.mp hx with h | h
        · exact hsl x h
        · simpa using h
      | false =>
        rw [show extractAux (l :: rest) il sl = extractAux rest il sl
          by simp [extractAux, hl, hb]]
        rw [ih il sl hsl, hrw]

theorem extractAux_head (lines : List String) :
    ∀ il sl, il ≠ [] → (extractAux lines il sl).head? = il.head? := by
  induction lines with
  | nil => intro il sl _; rfl
  | cons l rest ih =>
    intro il sl hil
    cases hl : isImportLine l with
    | true =>
      rw [show extractAux (l :: rest) il sl = extractAux rest (il ++ sl ++ [pyStrip l]) []
        by simp [extractAux, hl]]
      rw [ih _ [] (by simp [hil]), List.append_assoc,
        List.head?_append_of_ne_nil il hil]
    | false =>
      cases hb : (decide (l = "") && !il.isEmpty) with
      | true =>
        rw [show extractAux (l :: rest) il sl = extractAux rest il (sl ++ [""])
          by simp [extractAux, hl, hb]]
        exact ih il _ hil
      | false =>
        rw [show extractAux (l :: rest) il sl = extractAux rest il sl
          by simp [extractAux, hl, hb]]
        exact ih il sl hil

theorem extractAux_head_start (lines : List String) :
    (extractAux lines [] []).head? ≠ some "" := by
  induction lines with
  | nil => simp [extractAux]
  | cons l rest ih =>
    cases hl : isImportLine l with
    | true =>
      rw [show extractAux (l :: rest) [] [] = extractAux rest [pyStrip l] []
        by simp [extractAux, hl]]
      rw [extractAux_head rest [pyStrip l] [] (by simp)]
      intro hc
      rw [List.head?_cons] at hc
      exact pyStrip_ne_empty_of_import hl (Option.some.inj hc)
    | false =>
      rw [show extractAux (l :: rest) [] [] = extractAux rest [] []
        by simp [extractAux, hl]]
      exact ih

theorem extractAux_last (lines : List String) :
    ∀ il sl, (il = [] ∨ ∃ x, il.getLast? = some x ∧ x ≠ "") →
      (extractAux lines il sl) = [] ∨
        ∃ x, (extractAux lines il sl).getLast? = some x ∧ x ≠ "" := by
  induction lines with
  | nil => intro il sl h; exact h
  | cons l rest ih =>
    intro il sl h
    cases hl : isImportLine l with
    | true =>
      rw [show extractAux (l :: rest) il sl = extractAux rest (il ++ sl ++ [pyStrip l]) []
        by simp [extractAux, hl]]
      apply ih
      right
      exact ⟨pyStrip l, List.getLast?_concat _, pyStrip_ne_empty_of_import hl⟩
    | false =>
      cases hb : (decide (l = "") && !il.isEmpty) with
      | true =>
        rw [show extractAux (l :: rest) il sl = extractAux rest il (sl ++ [""])
          by simp [extractAux, hl, hb]]
        exact ih il _ h
      | false =>
        rw [show extractAux (l :: rest) il sl = extractAux rest il sl
          by simp [extractAux, hl, hb]]
        exact ih il sl h

/-! Part: Lemmas: heads and tails of joins -/

theorem joinChars_ne_nil_of_last {pieces : List (List Char)} {x : List Char}
    (hx : pieces.getLast? = some x) (hxne : x ≠ []) :
    joinChars ['\n'] pieces ≠ [] := by
  induction pieces with
  | nil => cases hx
  | cons p ps ih =>
    cases ps with
    | nil =>
      cases hx
      simpa [joinChars] using hxne
    | cons q qs =>
      rw [joinChars_cons _ p (by simp)]
      simp

theorem joinChars_head_ne_nl {pieces : List (List Char)}
    (hnl : ∀ p ∈ pieces, '\n' ∉ p)
    (hh : ∀ p, pieces.head? = some p → p ≠ []) :
    (joinChars ['\n'] pieces).head? ≠ some '\n' := by
  cases pieces with
  | nil => simp [joinChars]
  | cons p ps =>
    have hp : p ≠ [] := hh p rfl
    have hpn : '\n' ∉ p := hnl p (List.mem_cons_self p ps)
    cases ps with
    | nil =>
      intro hc
      exact hpn (List.mem_of_mem_head? (Option.mem_def.mpr hc))
    | cons q qs =>
      rw [joinChars_cons _ p (by simp), List.append_assoc,
        List.head?_append_of_ne_nil p hp]
      intro hc
      exact hpn (List.mem_of_mem_head? (Option.mem_def.mpr hc))

theorem joinChars_last_ne_nl {pieces : List (List Char)}
    (hnl : ∀ p ∈ pieces, '\n' ∉ p)
    (hl : pieces = [] ∨ ∃ x, pieces.getLast? = some x ∧ x ≠ []) :
    (joinChars ['\n'] pieces).getLast? ≠ some '\n' := by
  induction pieces with
  | nil => simp [joinChars]
  | cons p ps ih =>
    obtain ⟨x, hx, hxne⟩ := hl.resolve_left (by simp)
    cases ps with
    | nil =>
      intro hc
      have hmem : '\n' ∈ p := mem_of_getLast?_eq (by simpa [joinChars] using hc)
      exact hnl p (List.mem_cons_self p []) hmem
    | cons q qs =>
      rw [joinChars_cons _ p (by simp)]
      have hlast : (q :: qs).getLast? = some x := by
        rw [← hx, List.getLast?_cons_cons]
      have hne := joinChars_ne_nil_of_last hlast hxne
      rw [List.getLast?_append]
      have ihh := ih (fun r hr => hnl r (List.mem_cons_of_mem p hr))
        (Or.inr ⟨x, hlast, hxne⟩)
      obtain ⟨y, hy⟩ := Option.isSome_iff_exists.mp
        (Option.ne_none_iff_isSome.mp (fun hn => hne (List.getLast?_eq_none_iff.mp hn)))
      rw [hy]
      simpa [hy] using ihh

theorem splitLines_no_nl {text : String} {l : String} (h : l ∈ splitLines text) :
    '\n' ∉ l.data := by
  obtain ⟨p, hp, rfl⟩ := List.mem_map.mp h
  exact not_mem_of_mem_splitChar hp

theorem mem_extractAux (lines : List String) :
    ∀ il sl x, (∀ y ∈ sl, y = "") → x ∈ extractAux lines il sl →
      x ∈ il ∨ x = "" ∨ ∃ l ∈ lines, isImportLine l = true ∧ x = pyStrip l := by
  induction lines with
  | nil =>
    intro il sl x _ hx
    exact Or.inl hx
  | cons l rest ih =>
    intro il sl x hsl hx
    cases hl : isImportLine l with
    | true =>
      rw [show extractAux (l :: rest) il sl = extractAux rest (il ++ sl ++ [pyStrip l]) []
        by simp [extractAux, hl]] at hx
      rcases ih _ [] x (by simp) hx with hmem | hblank | ⟨m, hm, him, hxs⟩
      · rcases List.mem_append.mp hmem with hmem2 | hmem2
        · rcases List.mem_append.mp hmem2 with h3 | h3
          · exact Or.inl h3
          · exact Or.inr (Or.inl (hsl x h3))
        · refine Or.inr (Or.inr ⟨l, List.mem_cons_self l rest, hl, ?_⟩)
          simpa using hmem2
      · exact Or.inr (Or.inl hblank)
      · exact Or.inr (Or.inr ⟨m, List.mem_cons_of_mem l hm, him, hxs⟩)
    | false =>
      cases hb : (decide (l = "") && !il.isEmpty) with
      | true =>
        rw [show extractAux (l :: rest) il sl = extractAux rest il (sl ++ [""])
          by simp [extractAux, hl, hb]] at hx
        have hsl2 : ∀ y ∈ sl ++ [""], y = "" := by
          intro y hy
          rcases List.mem_append.mp hy with h3 | h3
          · exact hsl y h3
          · simpa using h3
        rcases ih il (sl ++ [""]) x hsl2 hx with hmem | hblank | ⟨m, hm, him, hxs⟩
        · exact Or.inl hmem
        · exact Or.inr (Or.inl hblank)
        · exact Or.inr (Or.inr ⟨m, List.mem_cons_of_mem l hm, him, hxs⟩)
      | false =>
        rw [show extractAux (l :: rest) il sl = extractAux rest il sl
          by simp [extractAux, hl, hb]] at hx
        rcases ih il sl x hsl hx with hmem | hblank | ⟨m, hm, him, hxs⟩
        · exact Or.inl hmem
        · exact Or.inr (Or.inl hblank)
        · exact Or.inr (Or.inr ⟨m, List.mem_cons_of_mem l hm, him, hxs⟩)

theorem no_nl_extract {text : String} {x : String}
    (hx : x ∈ extractAux (splitLines text) [] []) : '\n' ∉ x.data := by
  rcases mem_extractAux (splitLines text) [] [] x (by simp) hx with h | h | ⟨l, hl, _, rfl⟩
  · cases h
  · subst h
    simp
  · intro hc
    exact splitLines_no_nl hl (mem_of_mem_stripChars hc)

theorem construct_aux_none {stmt : String} (hbad : get_module_name_from_import stmt = none)
    (ov : Option Override) (env : Env) :
    ∀ (stmts : List String) (acc : ImportLists), stmt ∈ stmts →
      construct_aux ov env stmts acc = none := by
  intro stmts
  induction stmts with
  | nil =>
    intro acc h
    cases h
  | cons l rest ih =>
    intro acc hmem
    cases hp : get_module_name_from_import l with
    | none => simp [construct_aux, hp]
    | some m =>
      have hrest : stmt ∈ rest := by
        rcases List.mem_cons.mp hmem with rfl | h
        · rw [hbad] at hp
          cases hp
        · exact h
      simp [construct_aux, hp, ih _ hrest]

/-! Part: The claims -/

/-- Claim C1. For every invocation of the CLI pipeline, the value supplied to
the `--local` option is never read: in the override configuration handed to
the grouper, the `'local'` list equals the sanitized `--third_party` value,
not the sanitized `--local` value. -/
theorem c1_local_override_never_read :
    (∀ standard third_party localOpt : String,
      (cli_override standard third_party localOpt).loc =
        sanitize_cmd_line_opt third_party) ∧
    (cli_override "x" "numpy" "mylib").loc = ["numpy"] ∧
    (cli_override "x" "numpy" "mylib").loc ≠ sanitize_cmd_line_opt "mylib" := by
  refine ⟨fun s t l => rfl, by decide, by decide⟩

/-- Claim C3. For every module name contained in the overrides' standard list,
classification returns `standard` unconditionally, for every resolution
oracle (whether resolution would succeed or fail, and whatever the resolved
module's repr metadata would be). -/
theorem c3_standard_override_wins (module : String) (ov : Override) (env : Env)
    (h : module ∈ ov.standard) :
    is_standard_module module (some ov) env = true := by
  simp [is_standard_module, h]

theorem c3_witness :
    ("foo" ∈ (Override.mk ["foo"] [] ["bar"]).standard) ∧
    is_standard_module "foo" (some (Override.mk ["foo"] [] ["bar"]))
      (fun _ => none) = true :=
  ⟨by decide, c3_standard_override_wins "foo" (Override.mk ["foo"] [] ["bar"])
    (fun _ => none) (by decide)⟩

/-- Claim C4, counterexample. The extractor does not return only the
contiguous set of top-level import statements: on the file text
`"import a\n\nx = 1\nimport b\n"`, the import line `"import b"` that is
separated from the first import by the non-import line `"x = 1"` still
appears in the statement list, and the blank line adjacent to the
intervening non-import content leaks into the reconstructed raw text
(whose line sequence contains a blank line). -/
theorem c4_counterexample :
    get_import_lines (splitLines "import a\n\nx = 1\nimport b\n") =
      ("import a\n\nimport b", ["import a", "import b"]) ∧
    "import b" ∈ (get_import_lines (splitLines "import a\n\nx = 1\nimport b\n")).2 ∧
    "" ∈ splitLines "import a\n\nimport b" := by
  exact ⟨rfl, by decide, by decide⟩

/-- Claim C4, amended. For every file text: blank lines before the
first import never appear in the reconstructed block (the raw text never starts
with a newline character), buffered blank lines with no following import
are dropped (the raw text never ends with a newline character), and the
statement list is exactly the import-prefixed lines of the file, stripped,
in order — the extractor collects every import-prefixed line of the file,
not only a contiguous block, and blank lines between the first import and
a later import leak into the raw text even across non-import content. -/
theorem c4_extract_amended (text : String) :
    (get_import_lines (splitLines text)).2 =
      ((splitLines text).filter isImportLine).map pyStrip ∧
    (get_import_lines (splitLines text)).1.data.head? ≠ some '\n' ∧
    (get_import_lines (splitLines text)).1.data.getLast? ≠ some '\n' := by
  refine ⟨?_, ?_, ?_⟩
  · show (extractAux (splitLines text) [] []).filter (fun i => i != "") = _
    rw [extractAux_filter _ [] [] (by simp)]
    simp
  · show (joinChars ['\n']
      ((extractAux (splitLines text) [] []).map String.data)).head? ≠ some '\n'
    apply joinChars_head_ne_nl
    · intro p hp
      obtain ⟨x, hx, rfl⟩ := List.mem_map.mp hp
      exact no_nl_extract hx
    · intro p hp
      rw [List.head?_map] at hp
      cases hx : (extractAux (splitLines text) [] []).head? with
      | none =>
        rw [hx] at hp
        cases hp
      | some x =>
        rw [hx] at hp
        have hxne : x ≠ "" := fun he => extractAux_head_start (splitLines text) (he ▸ hx)
        cases hp
        intro hd
        exact hxne (String.ext hd)
  · show (joinChars ['\n']
      ((extractAux (splitLines text) [] []).map String.data)).getLast? ≠ some '\n'
    apply joinChars_last_ne_nl
    · intro p hp
      obtain ⟨x, hx, rfl⟩ := List.mem_map.mp hp
      exact no_nl_extract hx
    · rcases extractAux_last (splitLines text) [] [] (Or.inl rfl) with hnil | ⟨x, hx, hxne⟩
      · left
        rw [hnil]
        rfl
      · right
        refine ⟨x.data, ?_, fun hd => hxne (String.ext hd)⟩
        rw [List.getLast?_map, hx]
        rfl

/-- Claim C6. On the grouped input with
`standard = ["import built_in"]`,
`third_party = ["import z_third_party", "import a_third_party"]` and
`local = ["import last"]`, the orderer returns exactly
`"import built_in\n\nimport a_third_party\nimport z_third_party\n\nimport last"`
(third-party entries sorted alphabetically, groups separated by single
blank lines). -/
theorem c6_concrete_ordering :
    get_ordered_imports
      ⟨some (PyVal.strs ["import built_in"]),
       some (PyVal.strs ["import z_third_party", "import a_third_party"]),
       some (PyVal.strs ["import last"])⟩ =
      some (⟨some (PyVal.str "import built_in"),
             some (PyVal.str "import a_third_party\nimport z_third_party"),
             some (PyVal.str "import last")⟩,
        "import built_in\n\nimport a_third_party\nimport z_third_party\n\nimport last") := by
  rfl

/-- Claim C7. Every import statement whose extracted module name is the
relative-import sentinel `"."` is assigned the `local` category, for all
override configurations and all resolution oracles, without the
standard/third-party classifiers being able to interfere. -/
theorem c7_relative_import_is_local (stmt : String) (ov : Option Override) (env : Env)
    (h : get_module_name_from_import stmt = some ".") :
    construct_import_dict [stmt] ov env =
      some ⟨none, none, some (PyVal.strs [stmt])⟩ := by
  simp [construct_import_dict, construct_aux, h, categorize, addLine, optOf]

theorem c7_witness :
    get_module_name_from_import "from . import function" = some "." ∧
    construct_import_dict ["from . import function"]
      (some (Override.mk ["."] [] [])) (fun _ => some "built-in") =
      some ⟨none, none, some (PyVal.strs ["from . import function"])⟩ :=
  ⟨rfl, c7_relative_import_is_local "from . import function"
    (some (Override.mk ["."] [] [])) (fun _ => some "built-in") rfl⟩

/-- Claim C8. A statement that does not match the import-line grammar makes
module-name extraction raise (`none`), and nothing in the grouping pipeline
catches it: one malformed statement makes `construct_import_dict`, and the
whole per-file run, abort. -/
theorem c8_parse_error_aborts (ov : Option Override) (env : Env) (stmt : String)
    (hbad : get_module_name_from_import stmt = none) :
    (∀ stmts : List String, stmt ∈ stmts →
      construct_import_dict stmts ov env = none) ∧
    (∀ text : String, stmt ∈ (get_import_lines (splitLines text)).2 →
      run_pipeline text ov env = none) := by
  constructor
  · intro stmts hmem
    unfold construct_import_dict
    rw [construct_aux_none hbad ov env stmts _ hmem]
    rfl
  · intro text hmem
    have h1 : construct_import_dict (get_import_lines (splitLines text)).2 ov env
        = none := by
      unfold construct_import_dict
      rw [construct_aux_none hbad ov env _ _ hmem]
      rfl
    simp only [run_pipeline]
    rw [h1]
    rfl

theorem c8_witness :
    construct_import_dict ["import os", "fromage = 1"] none (fun _ => none) = none ∧
    run_pipeline "import os\nfromage = 1\n" none (fun _ => none) = none :=
  ⟨(c8_parse_error_aborts none (fun _ => none) "fromage = 1" rfl).1
      ["import os", "fromage = 1"] (by decide),
   (c8_parse_error_aborts none (fun _ => none) "fromage = 1" rfl).2
      "import os\nfromage = 1\n" (by decide)⟩

/-- Claim C9. Recognition is by raw character prefix, so non-import lines
such as `"importlib.reload(m)"` and `"fromage = 1"` are classified
as import lines, enter the statement list, and module-name extraction on them
raises an uncaught `ValueError` that aborts the run (for every override
configuration and resolution oracle). -/
theorem c9_prefix_false_positives :
    isImportLine "importlib.reload(m)" = true ∧
    isImportLine "fromage = 1" = true ∧
    (get_import_lines ["importlib.reload(m)"]).2 = ["importlib.reload(m)"] ∧
    (get_import_lines ["fromage = 1"]).2 = ["fromage = 1"] ∧
    get_module_name_from_import "importlib.reload(m)" = none ∧
    get_module_name_from_import "fromage = 1" = none ∧
    (∀ (ov : Option Override) (env : Env),
      run_pipeline "x = 1\nimportlib.reload(m)\n" ov env = none) ∧
    (∀ (ov : Option Override) (env : Env),
      run_pipeline "fromage = 1\n" ov env = none) :=
  ⟨rfl, rfl, rfl, rfl, rfl, rfl, fun _ _ => rfl, fun _ _ => rfl⟩

/-- Claim C10. `get_ordered_imports` mutates its argument: whenever it
returns, every one of the three category keys of the passed-in dict has
been rebound to a string (the empty string for a key that was absent), so
the caller's original statement lists are gone. -/
theorem c10_orderer_rebinds_keys (g d : GroupedImports) (out : String)
    (h : get_ordered_imports g = some (d, out)) :
    ∃ s1 s2 s3 : String,
      d = ⟨some (PyVal.str s1), some (PyVal.str s2), some (PyVal.str s3)⟩ ∧
      (g.standard = none → s1 = "") ∧
      (g.third_party = none → s2 = "") ∧
      (g.loc = none → s3 = "") := by
  unfold get_ordered_imports at h
  obtain ⟨s, hs, h⟩ := Option.bind_eq_some.mp h
  obtain ⟨t, ht, h⟩ := Option.bind_eq_some.mp h
  obtain ⟨l, hl, h⟩ := Option.bind_eq_some.mp h
  have h2 := Option.some.inj h
  cases h2
  refine ⟨s, t, l, rfl, ?_, ?_, ?_⟩
  · intro hnone
    rw [hnone] at hs
    exact (Option.some.inj hs).symm
  · intro hnone
    rw [hnone] at ht
    exact (Option.some.inj ht).symm
  · intro hnone
    rw [hnone] at hl
    exact (Option.some.inj hl).symm

theorem c10_witness :
    ∃ s1 s2 s3 : String,
      (⟨some (PyVal.str "import a\nimport b"), some (PyVal.str ""),
        some (PyVal.str "")⟩ : GroupedImports) =
        ⟨some (PyVal.str s1), some (PyVal.str s2), some (PyVal.str s3)⟩ ∧
      ((⟨some (PyVal.strs ["import b", "import a"]), none, none⟩ :
          GroupedImports).standard = none → s1 = "") ∧
      ((⟨some (PyVal.strs ["import b", "import a"]), none, none⟩ :
          GroupedImports).third_party = none → s2 = "") ∧
      ((⟨some (PyVal.strs ["import b", "import a"]), none, none⟩ :
          GroupedImports).loc = none → s3 = "") :=
  c10_orderer_rebinds_keys
    ⟨some (PyVal.strs ["import b", "import a"]), none, none⟩
    ⟨some (PyVal.str "import a\nimport b"), some (PyVal.str ""), some (PyVal.str "")⟩
    "import a\nimport b" rfl

/-! Part: Lemmas: `joinLines`, `splitLines` and `weave` -/

theorem joinLines_data (sep : String) (l : List String) :
    (joinLines sep l).data = joinChars sep.data (l.map String.data) := rfl

theorem joinLines_cons (sep p : String) {ps : List String} (h : ps ≠ []) :
    joinLines sep (p :: ps) = p ++ sep ++ joinLines sep ps := by
  apply String.ext
  rw [joinLines_data, List.map_cons, joinChars_cons _ _ (by simpa using h),
    String.data_append, String.data_append, joinLines_data]

theorem joinLines_append (sep : String) {a b : List String} (ha : a ≠ []) (hb : b ≠ []) :
    joinLines sep (a ++ b) = joinLines sep a ++ sep ++ joinLines sep b := by
  induction a with
  | nil => exact absurd rfl ha
  | cons x a' ih =>
    cases a' with
    | nil =>
      rw [List.singleton_append, joinLines_cons sep x hb]
      rfl
    | cons y a'' =>
      rw [List.cons_append, joinLines_cons sep x (by simp),
        joinLines_cons sep x (by simp), ih (by simp)]
      simp [String.append_assoc]

theorem joinLines_ne_empty {ss : List String} (hne : ss ≠ [])
    (h : ∀ x ∈ ss, x ≠ "") : joinLines "\n" ss ≠ "" := by
  cases ss with
  | nil => exact absurd rfl hne
  | cons x rest =>
    cases rest with
    | nil => exact h x (List.mem_cons_self x [])
    | cons y rest' =>
      intro hc
      have hd := congrArg String.data hc
      rw [joinLines_data] at hd
      simp only [List.map_cons] at hd
      rw [joinChars_cons _ _ (by simp)] at hd
      simp at hd

theorem map_mk_map_data (pieces : List String) :
    (pieces.map String.data).map String.mk = pieces := by
  induction pieces with
  | nil => rfl
  | cons p ps ih =>
    rw [List.map_cons, List.map_cons, ih]

theorem splitLines_joinLines {pieces : List String} (hne : pieces ≠ [])
    (hnl : ∀ p ∈ pieces, '\n' ∉ p.data) :
    splitLines (joinLines "\n" pieces) = pieces := by
  show (splitChar '\n' (joinLines "\n" pieces).data).map String.mk = pieces
  rw [joinLines_data]
  rw [splitChar_joinChars (by simpa using hne) ?hsep]
  · exact map_mk_map_data pieces
  case hsep =>
    intro p hp
    obtain ⟨x, hx, rfl⟩ := List.mem_map.mp hp
    exact hnl x hx

theorem weave_cons (g : List String) {gs : List (List String)} (h : gs ≠ []) :
    weave (g :: gs) = g ++ "" :: weave gs := by
  cases gs with
  | nil => exact absurd rfl h
  | cons q qs => rfl

theorem weave_ne_nil {gs : List (List String)} (hne : gs ≠ [])
    (h : ∀ g ∈ gs, g ≠ []) : weave gs ≠ [] := by
  cases gs with
  | nil => exact absurd rfl hne
  | cons g rest =>
    cases rest with
    | nil => exact h g (List.mem_cons_self g [])
    | cons q qs =>
      rw [weave_cons g (by simp)]
      simp [h g (List.mem_cons_self g _)]

theorem mem_weave {gs : List (List String)} {x : String} :
    x ∈ weave gs → x = "" ∨ ∃ g ∈ gs, x ∈ g := by
  induction gs with
  | nil => intro h; cases h
  | cons g rest ih =>
    cases rest with
    | nil =>
      intro h
      exact Or.inr ⟨g, List.mem_cons_self g [], h⟩
    | cons q qs =>
      rw [weave_cons g (by simp)]
      intro h
      rcases List.mem_append.mp h with h1 | h1
      · exact Or.inr ⟨g, List.mem_cons_self g _, h1⟩
      · rcases List.mem_cons.mp h1 with rfl | h2
        · exact Or.inl rfl
        · rcases ih h2 with h3 | ⟨g', hg', hx⟩
          · exact Or.inl h3
          · exact Or.inr ⟨g', List.mem_cons_of_mem g hg', hx⟩

theorem weave_head_ne {gs : List (List String)}
    (h : ∀ g ∈ gs, g ≠ [] ∧ ∀ x ∈ g, x ≠ "") :
    (weave gs).head? ≠ some "" := by
  cases gs with
  | nil => simp [weave]
  | cons g rest =>
    obtain ⟨hgne, hgx⟩ := h g (List.mem_cons_self g rest)
    have hh : (weave (g :: rest)).head? = g.head? := by
      cases rest with
      | nil => rfl
      | cons q qs =>
        rw [weave_cons g (by simp), List.head?_append_of_ne_nil g hgne]
    rw [hh]
    intro hc
    exact hgx "" (List.mem_of_mem_head? (Option.mem_def.mpr hc)) rfl

theorem weave_last_ne {gs : List (List String)}
    (h : ∀ g ∈ gs, g ≠ [] ∧ ∀ x ∈ g, x ≠ "") :
    (weave gs).getLast? ≠ some "" := by
  induction gs with
  | nil => simp [weave]
  | cons g rest ih =>
    cases rest with
    | nil =>
      obtain ⟨hgne, hgx⟩ := h g (List.mem_cons_self g [])
      intro hc
      exact hgx "" (mem_of_getLast?_eq hc) rfl
    | cons q qs =>
      rw [weave_cons g (by simp)]
      have hrest : ∀ g' ∈ q :: qs, g' ≠ [] ∧ ∀ x ∈ g', x ≠ "" :=
        fun g' hg' => h g' (List.mem_cons_of_mem g hg')
      have hwne : weave (q :: qs) ≠ [] :=
        weave_ne_nil (by simp) (fun g' hg' => (hrest g' hg').1)
      rw [List.getLast?_append]
      have : ("" :: weave (q :: qs)).getLast? = (weave (q :: qs)).getLast? := by
        cases hw : weave (q :: qs) with
        | nil => exact absurd hw hwne
        | cons a as => rw [List.getLast?_cons_cons]
      rw [this]
      obtain ⟨y, hy⟩ := Option.isSome_iff_exists.mp
        (Option.ne_none_iff_isSome.mp (fun hn => hwne (List.getLast?_eq_none_iff.mp hn)))
      rw [hy]
      simpa [hy] using ih hrest

theorem chain'_of_no_blank {l : List String} (h : ∀ x ∈ l, x ≠ "") :
    List.Chain' (fun a b => ¬(a = "" ∧ b = "")) l := by
  induction l with
  | nil => simp
  | cons a rest ih =>
    rw [List.chain'_cons']
    refine ⟨?_, ih (fun x hx => h x (List.mem_cons_of_mem a hx))⟩
    intro y _ hc
    exact h a (List.mem_cons_self a rest) hc.1

theorem chain'_weave {gs : List (List String)}
    (h : ∀ g ∈ gs, g ≠ [] ∧ ∀ x ∈ g, x ≠ "") :
    List.Chain' (fun a b => ¬(a = "" ∧ b = "")) (weave gs) := by
  induction gs with
  | nil => simp [weave]
  | cons g rest ih =>
    cases rest with
    | nil => exact chain'_of_no_blank (h g (List.mem_cons_self g [])).2
    | cons q qs =>
      rw [weave_cons g (by simp)]
      obtain ⟨hgne, hgx⟩ := h g (List.mem_cons_self g _)
      have hrest : ∀ g' ∈ q :: qs, g' ≠ [] ∧ ∀ x ∈ g', x ≠ "" :=
        fun g' hg' => h g' (List.mem_cons_of_mem g hg')
      rw [List.chain'_append]
      refine ⟨chain'_of_no_blank hgx, ?_, ?_⟩
      · rw [List.chain'_cons']
        refine ⟨?_, ih hrest⟩
        intro y hy hc
        rcases mem_weave (List.mem_of_mem_head? hy) with h1 | ⟨g', hg', hx⟩
        · -- y = "" adjacent to the separator: impossible, weave head is a statement
          have := weave_head_ne hrest
          rw [Option.mem_def.mp hy] at this
          exact this (by rw [h1])
        · exact (hrest g' hg').2 y hx hc.2
      · intro x hx y hy hc
        exact hgx x (mem_of_getLast?_eq (Option.mem_def.mp hx)) hc.1

theorem weave_filter {gs : List (List String)}
    (h : ∀ g ∈ gs, ∀ x ∈ g, x ≠ "") :
    (weave gs).filter (fun i => i != "") = gs.flatten := by
  induction gs with
  | nil => rfl
  | cons g rest ih =>
    have hg : g.filter (fun i => i != "") = g := by
      rw [List.filter_eq_self]
      intro a ha
      simpa using h g (List.mem_cons_self g rest) a ha
    cases rest with
    | nil => simp [weave, hg]
    | cons q qs =>
      rw [weave_cons g (by simp), List.filter_append, hg, List.filter_cons]
      rw [if_neg (by simp)]
      rw [ih (fun g' hg' => h g' (List.mem_cons_of_mem g hg'))]
      simp

theorem join2_eq_join1_weave {gs : List (List String)}
    (h : ∀ g ∈ gs, g ≠ []) :
    joinLines "\n\n" (gs.map (joinLines "\n")) = joinLines "\n" (weave gs) := by
  induction gs with
  | nil => rfl
  | cons g rest ih =>
    cases rest with
    | nil => rfl
    | cons q qs =>
      have hgne := h g (List.mem_cons_self g _)
      have hrest : ∀ g' ∈ q :: qs, g' ≠ [] :=
        fun g' hg' => h g' (List.mem_cons_of_mem g hg')
      have hwne : weave (q :: qs) ≠ [] :=
        weave_ne_nil (by simp) hrest
      rw [List.map_cons, joinLines_cons _ _ (by simp), ih hrest,
        weave_cons g (by simp),
        joinLines_append "\n" hgne (by simp),
        joinLines_cons "\n" "" hwne]
      apply String.ext
      simp [String.data_append]

theorem flatten_filter_ne_nil {α : Type _} (gs : List (List α)) :
    (gs.filter (fun g => !g.isEmpty)).flatten = gs.flatten := by
  induction gs with
  | nil => rfl
  | cons g rest ih =>
    cases g with
    | nil => simpa using ih
    | cons x xs => simpa using ih

/-! Part: Lemmas: the orderer -/

theorem ne_empty_of_sortKey {s : String} (h : (sortKey s).isSome = true) : s ≠ "" := by
  intro he
  rw [he] at h
  cases h

theorem processVal_spec {v : Option PyVal} {S : String}
    (hnl : pvNoNL v = true) (h : processVal v = some S) :
    S = "" ∨ ∃ ss : List String, S = joinLines "\n" ss ∧ ss ≠ [] ∧
      ∀ x ∈ ss, x ≠ "" ∧ '\n' ∉ x.data := by
  match v with
  | none => exact Or.inl (Option.some.inj h).symm
  | some (PyVal.str s) =>
    by_cases hs : s = ""
    · apply Or.inl
      rw [show processVal (some (PyVal.str s)) = if s = "" then some "" else none from rfl,
        if_pos hs] at h
      exact (Option.some.inj h).symm
    · rw [show processVal (some (PyVal.str s)) = if s = "" then some "" else none from rfl,
        if_neg hs] at h
      cases h
  | some (PyVal.strs l) =>
    rw [show processVal (some (PyVal.strs l))
        = (pySorted l).map (fun sl => joinLines "\n" sl) from rfl] at h
    obtain ⟨sl, hsl, rfl⟩ := Option.map_eq_some'.mp h
    unfold pySorted at hsl
    by_cases hall : l.all (fun s => (sortKey s).isSome) = true
    · rw [if_pos hall] at hsl
      have hsl2 := Option.some.inj hsl
      by_cases hnil : sl = []
      · subst hnil
        exact Or.inl rfl
      · refine Or.inr ⟨sl, rfl, hnil, ?_⟩
        intro x hx
        have hxl : x ∈ l := by
          rw [← hsl2] at hx
          exact (List.mem_insertionSort stmtRel).mp hx
        refine ⟨ne_empty_of_sortKey (List.all_eq_true.mp hall x hxl), ?_⟩
        have hx2 := List.all_eq_true.mp hnl x hxl
        simpa using hx2
    · rw [if_neg hall] at hsl
      cases hsl

theorem blocks_decomp (blocks : List String)
    (h : ∀ b ∈ blocks, ∃ ss : List String, b = joinLines "\n" ss ∧ ss ≠ [] ∧
      ∀ x ∈ ss, x ≠ "" ∧ '\n' ∉ x.data) :
    ∃ gss : List (List String), blocks = gss.map (joinLines "\n") ∧
      ∀ g ∈ gss, g ≠ [] ∧ ∀ x ∈ g, x ≠ "" ∧ '\n' ∉ x.data := by
  induction blocks with
  | nil => exact ⟨[], rfl, by simp⟩
  | cons b bs ih =>
    obtain ⟨ss, hb, hssne, hss⟩ := h b (List.mem_cons_self b bs)
    obtain ⟨gss, hgss, hgood⟩ := ih (fun b' hb' => h b' (List.mem_cons_of_mem b hb'))
    refine ⟨ss :: gss, ?_, ?_⟩
    · rw [List.map_cons, ← hb, ← hgss]
    · intro g hg
      rcases List.mem_cons.mp hg with rfl | hg2
      · exact ⟨hssne, hss⟩
      · exact hgood g hg2

/-- Claim C5. When the orderer is given grouped Import Statements (single
lines, per the data model) and returns, its output string never contains
two consecutive blank lines (no two adjacent blank entries in its line
decomposition), and it neither begins nor ends with a blank line (its
character sequence neither begins nor ends with a newline). -/
theorem c5_separator_invariant (g d : GroupedImports) (out : String)
    (h1 : pvNoNL g.standard = true) (h2 : pvNoNL g.third_party = true)
    (h3 : pvNoNL g.loc = true)
    (h : get_ordered_imports g = some (d, out)) :
    List.Chain' (fun a b => ¬(a = "" ∧ b = "")) (splitLines out) ∧
    out.data.head? ≠ some '\n' ∧ out.data.getLast? ≠ some '\n' := by
  unfold get_ordered_imports at h
  obtain ⟨S, hS, h⟩ := Option.bind_eq_some.mp h
  obtain ⟨T, hT, h⟩ := Option.bind_eq_some.mp h
  obtain ⟨L, hL, h⟩ := Option.bind_eq_some.mp h
  have hpair := Option.some.inj h
  have hout : out = joinLines "\n\n" ([S, T, L].filter (fun b => b != "")) :=
    (congrArg Prod.snd hpair).symm
  have hblocks : ∀ b ∈ [S, T, L].filter (fun b => b != ""),
      ∃ ss : List String, b = joinLines "\n" ss ∧ ss ≠ [] ∧
        ∀ x ∈ ss, x ≠ "" ∧ '\n' ∉ x.data := by
    intro b hb
    have hbne : b ≠ "" := by simpa using List.of_mem_filter hb
    have hbmem : b ∈ [S, T, L] := List.mem_of_mem_filter hb
    simp only [List.mem_cons, List.not_mem_nil, or_false] at hbmem
    rcases hbmem with rfl | rfl | rfl
    · exact (processVal_spec h1 hS).resolve_left hbne
    · exact (processVal_spec h2 hT).resolve_left hbne
    · exact (processVal_spec h3 hL).resolve_left hbne
  obtain ⟨gss, hgss_eq, hgss_good⟩ := blocks_decomp _ hblocks
  have hne' : ∀ g' ∈ gss, g' ≠ [] := fun g' hg' => (hgss_good g' hg').1
  have hgood2 : ∀ g' ∈ gss, g' ≠ [] ∧ ∀ x ∈ g', x ≠ "" :=
    fun g' hg' => ⟨(hgss_good g' hg').1, fun x hx => ((hgss_good g' hg').2 x hx).1⟩
  have hnlw : ∀ x ∈ weave gss, '\n' ∉ x.data := by
    intro x hx
    rcases mem_weave hx with rfl | ⟨g', hg', hxg⟩
    · simp
    · exact ((hgss_good g' hg').2 x hxg).2
  rw [hout, hgss_eq, join2_eq_join1_weave hne']
  by_cases hgss : gss = []
  · subst hgss
    refine ⟨List.chain'_singleton "", ?_, ?_⟩
    · intro hc
      cases hc
    · intro hc
      cases hc
  · constructor
    · rw [splitLines_joinLines (weave_ne_nil hgss hne') hnlw]
      exact chain'_weave hgood2
    constructor
    · rw [joinLines_data]
      apply joinChars_head_ne_nl
      · intro p hp
        obtain ⟨x, hx, rfl⟩ := List.mem_map.mp hp
        exact hnlw x hx
      · intro p hp
        rw [List.head?_map] at hp
        cases hx : (weave gss).head? with
        | none =>
          rw [hx] at hp
          cases hp
        | some x =>
          rw [hx] at hp
          have hxne : x ≠ "" := fun he => weave_head_ne hgood2 (he ▸ hx)
          have hpx : p = x.data := (Option.some.inj hp).symm
          subst hpx
          exact fun hd => hxne (String.ext hd)
    · rw [joinLines_data]
      apply joinChars_last_ne_nl
      · intro p hp
        obtain ⟨x, hx, rfl⟩ := List.mem_map.mp hp
        exact hnlw x hx
      · right
        have hwne := weave_ne_nil hgss hne'
        obtain ⟨y, hy⟩ := Option.isSome_iff_exists.mp
          (Option.ne_none_iff_isSome.mp (fun hn => hwne (List.getLast?_eq_none_iff.mp hn)))
        have hyne : y ≠ "" := fun he => weave_last_ne hgood2 (he ▸ hy)
        refine ⟨y.data, ?_, fun hd => hyne (String.ext hd)⟩
        rw [List.getLast?_map, hy]
        rfl

theorem c5_witness :
    pvNoNL (⟨some (PyVal.strs ["import b", "import a"]), none,
      some (PyVal.strs ["import z"])⟩ : GroupedImports).standard = true ∧
    (List.Chain' (fun a b => ¬(a = "" ∧ b = ""))
      (splitLines "import a\nimport b\n\nimport z") ∧
    ("import a\nimport b\n\nimport z" : String).data.head? ≠ some '\n' ∧
    ("import a\nimport b\n\nimport z" : String).data.getLast? ≠ some '\n') :=
  ⟨rfl, c5_separator_invariant
    ⟨some (PyVal.strs ["import b", "import a"]), none, some (PyVal.strs ["import z"])⟩
    ⟨some (PyVal.str "import a\nimport b"), some (PyVal.str ""),
      some (PyVal.str "import z")⟩
    "import a\nimport b\n\nimport z" rfl rfl rfl rfl⟩

/-! Part: Lemmas: the comparison used by `sorted` -/

theorem listCharLe_total : ∀ a b : List Char, listCharLe a b = true ∨ listCharLe b a = true := by
  intro a
  induction a with
  | nil => intro b; exact Or.inl rfl
  | cons x xs ih =>
    intro b
    cases b with
    | nil => exact Or.inr rfl
    | cons y ys =>
      rcases lt_trichotomy x y with hlt | heq | hgt
      · exact Or.inl (by simp [listCharLe, hlt])
      · subst heq
        rcases ih ys with h | h
        · exact Or.inl (by simp [listCharLe, lt_irrefl, h])
        · exact Or.inr (by simp [listCharLe, lt_irrefl, h])
      · exact Or.inr (by simp [listCharLe, hgt])

theorem listCharLe_trans : ∀ {a b c : List Char}, listCharLe a b = true →
    listCharLe b c = true → listCharLe a c = true := by
  intro a
  induction a with
  | nil => intro b c _ _; rfl
  | cons x xs ih =>
    intro b c hab hbc
    cases b with
    | nil => simp [listCharLe] at hab
    | cons y ys =>
      cases c with
      | nil => simp [listCharLe] at hbc
      | cons z zs =>
        by_cases hxy : x < y
        · by_cases hyz : y < z
          · simp [listCharLe, lt_trans hxy hyz]
          · by_cases hzy : z < y
            · simp [listCharLe, hyz, hzy] at hbc
            · have heq : y = z := le_antisymm (not_lt.mp hzy) (not_lt.mp hyz)
              subst heq
              simp [listCharLe, hxy]
        · by_cases hyx : y < x
          · simp [listCharLe, hxy, hyx] at hab
          · have heq : x = y := le_antisymm (not_lt.mp hyx) (not_lt.mp hxy)
            subst heq
            simp only [listCharLe, if_neg (lt_irrefl x)] at hab
            by_cases hxz : x < z
            · simp [listCharLe, hxz]
            · by_cases hzx : z < x
              · simp [listCharLe, hxz, hzx] at hbc
              · have heq2 : x = z := le_antisymm (not_lt.mp hzx) (not_lt.mp hxz)
                subst heq2
                simp only [listCharLe, if_neg (lt_irrefl x)] at hbc ⊢
                exact ih hab hbc

/-! Part: Lemmas: the grouper -/

theorem parse_ok_of_construct_aux {ov : Option Override} {env : Env} :
    ∀ {stmts : List String} {acc il : ImportLists},
      construct_aux ov env stmts acc = some il →
      ∀ s ∈ stmts, (get_module_name_from_import s).isSome = true := by
  intro stmts
  induction stmts with
  | nil =>
    intro acc il _ s hs
    cases hs
  | cons l rest ih =>
    intro acc il h s hs
    cases hp : get_module_name_from_import l with
    | none =>
      simp [construct_aux, hp] at h
    | some m =>
      rcases List.mem_cons.mp hs with rfl | hs2
      · simp [hp]
      · simp only [construct_aux, hp] at h
        exact ih h s hs2

theorem construct_aux_spec (ov : Option Override) (env : Env) :
    ∀ (stmts : List String) (acc : ImportLists),
      (∀ s ∈ stmts, (get_module_name_from_import s).isSome = true) →
      construct_aux ov env stmts acc = some
        ⟨acc.standard ++ pick ov env Category.standard stmts,
         acc.third_party ++ pick ov env Category.third_party stmts,
         acc.loc ++ pick ov env Category.loc stmts⟩ := by
  intro stmts
  induction stmts with
  | nil =>
    intro acc _
    simp [construct_aux, pick]
  | cons l rest ih =>
    intro acc hp
    obtain ⟨m, hm⟩ := Option.isSome_iff_exists.mp (hp l (List.mem_cons_self l rest))
    have hlc : lineCat ov env l = some (categorize m ov env) := by
      rw [lineCat, hm]
      rfl
    rw [show construct_aux ov env (l :: rest) acc
        = construct_aux ov env rest (addLine acc (categorize m ov env) l) by
      simp [construct_aux, hm]]
    rw [ih _ (fun s hs => hp s (List.mem_cons_of_mem l hs))]
    cases hc : categorize m ov env with
    | standard =>
      rw [hc] at hlc
      simp [addLine, pick, List.filter_cons, hlc]
    | third_party =>
      rw [hc] at hlc
      simp [addLine, pick, List.filter_cons, hlc]
    | loc =>
      rw [hc] at hlc
      simp [addLine, pick, List.filter_cons, hlc]

theorem mem_pick {ov : Option Override} {env : Env} {c : Category}
    {l : List String} {x : String} (h : x ∈ pick ov env c l) :
    x ∈ l ∧ lineCat ov env x = some c := by
  refine ⟨List.mem_of_mem_filter h, ?_⟩
  have h2 := List.of_mem_filter h
  simpa using h2

/-! Part: Lemmas: the orderer on list-valued dicts -/

theorem processVal_optOf (ls : List String) :
    processVal (optOf ls) =
      if ls = [] then some "" else (pySorted ls).map (fun sl => joinLines "\n" sl) := by
  cases ls with
  | nil => rfl
  | cons x xs =>
    rw [if_neg (by simp)]
    rfl

theorem slot_spec {ls : List String} {S : String}
    (h : processVal (optOf ls) = some S) :
    S = joinLines "\n" (ls.insertionSort stmtRel) ∧
    ∀ x ∈ ls, (sortKey x).isSome = true := by
  by_cases hnil : ls = []
  · subst hnil
    refine ⟨?_, by simp⟩
    have hS : S = "" := (Option.some.inj h).symm
    rw [hS]
    rfl
  · rw [processVal_optOf, if_neg hnil] at h
    obtain ⟨sl, hsl, rfl⟩ := Option.map_eq_some'.mp h
    unfold pySorted at hsl
    by_cases hall : ls.all (fun s => (sortKey s).isSome) = true
    · rw [if_pos hall] at hsl
      cases Option.some.inj hsl
      exact ⟨rfl, fun x hx => List.all_eq_true.mp hall x hx⟩
    · rw [if_neg hall] at hsl
      cases hsl

theorem slot_resort {ls : List String}
    (hall : ∀ x ∈ ls, (sortKey x).isSome = true) :
    processVal (optOf (ls.insertionSort stmtRel)) =
      some (joinLines "\n" (ls.insertionSort stmtRel)) := by
  haveI : IsTotal String stmtRel := ⟨fun a b => listCharLe_total _ _⟩
  haveI : IsTrans String stmtRel := ⟨fun a b c hab hbc => listCharLe_trans hab hbc⟩
  by_cases hnil : ls.insertionSort stmtRel = []
  · rw [hnil]
    rfl
  · rw [processVal_optOf, if_neg hnil]
    have hall2 : (ls.insertionSort stmtRel).all (fun s => (sortKey s).isSome) = true := by
      rw [List.all_eq_true]
      intro x hx
      exact hall x ((List.mem_insertionSort stmtRel).mp hx)
    rw [show pySorted (ls.insertionSort stmtRel)
        = some ((ls.insertionSort stmtRel).insertionSort stmtRel) from by
      rw [pySorted, if_pos hall2]]
    rw [List.Sorted.insertionSort_eq (List.sorted_insertionSort stmtRel ls)]
    rfl

/-! Part: Lemmas: extraction of an already-canonical block -/

theorem extractAux_canonical : ∀ (lines : List String),
    (∀ l ∈ lines, l = "" ∨ (isImportLine l = true ∧ pyStrip l = l)) →
    lines.getLast? ≠ some "" →
    ∀ il sl, il ≠ [] → lines ≠ [] →
      extractAux lines il sl = il ++ sl ++ lines := by
  intro lines
  induction lines with
  | nil =>
    intro _ _ il sl _ hne
    exact absurd rfl hne
  | cons l rest ih =>
    intro hmem hlast il sl hil _
    rcases hmem l (List.mem_cons_self l rest) with rfl | ⟨him, hstrip⟩
    · have hrest : rest ≠ [] := by
        intro hr
        subst hr
        exact hlast rfl
      have hlast2 : rest.getLast? ≠ some "" := by
        cases rest with
        | nil => exact absurd rfl hrest
        | cons r rs =>
          rw [List.getLast?_cons_cons] at hlast
          exact hlast
      have hbranch : extractAux ("" :: rest) il sl = extractAux rest il (sl ++ [""]) := by
        have hempty : il.isEmpty = false := by
          cases il with
          | nil => exact absurd rfl hil
          | cons a as => rfl
        simp [extractAux, show isImportLine "" = false from rfl, hempty]
      rw [hbranch,
        ih (fun l' hl' => hmem l' (List.mem_cons_of_mem "" hl')) hlast2 il (sl ++ [""])
          hil hrest]
      simp
    · have hbranch : extractAux (l :: rest) il sl
          = extractAux rest (il ++ sl ++ [pyStrip l]) [] := by
        simp [extractAux, him]
      rw [hbranch, hstrip]
      cases rest with
      | nil => simp [extractAux]
      | cons r rs =>
        have hlast2 : (r :: rs).getLast? ≠ some "" := by
          rw [List.getLast?_cons_cons] at hlast
          exact hlast
        rw [ih (fun l' hl' => hmem l' (List.mem_cons_of_mem l hl')) hlast2
          (il ++ sl ++ [l]) [] (by simp) (by simp)]
        simp

theorem extract_canonical {lines : List String}
    (hmem : ∀ l ∈ lines, l = "" ∨ (isImportLine l = true ∧ pyStrip l = l))
    (hhead : lines.head? ≠ some "") (hlast : lines.getLast? ≠ some "")
    (hne : lines ≠ []) :
    extractAux lines [] [] = lines := by
  cases lines with
  | nil => exact absurd rfl hne
  | cons l rest =>
    rcases hmem l (List.mem_cons_self l rest) with rfl | ⟨him, hstrip⟩
    · exact absurd rfl hhead
    · have hbranch : extractAux (l :: rest) [] [] = extractAux rest [pyStrip l] [] := by
        simp [extractAux, him]
      rw [hbranch, hstrip]
      cases rest with
      | nil => simp [extractAux]
      | cons r rs =>
        have hlast2 : (r :: rs).getLast? ≠ some "" := by
          rw [List.getLast?_cons_cons] at hlast
          exact hlast
        rw [extractAux_canonical (r :: rs)
          (fun l' hl' => hmem l' (List.mem_cons_of_mem l hl')) hlast2
          [l] [] (by simp) (by simp)]
        simp

theorem stmts_prop {text : String} {x : String}
    (hx : x ∈ (get_import_lines (splitLines text)).2) :
    isImportLine x = true ∧ pyStrip x = x ∧ x ≠ "" ∧ '\n' ∉ x.data := by
  have hx2 : x ∈ extractAux (splitLines text) [] [] := List.mem_of_mem_filter hx
  have hxne : x ≠ "" := by
    have h2 := List.of_mem_filter hx
    simpa using h2
  rcases mem_extractAux _ [] [] x (by simp) hx2 with h | h | ⟨l, hl, him, rfl⟩
  · cases h
  · exact absurd h hxne
  · exact ⟨isImportLine_pyStrip him, pyStrip_pyStrip l, hxne,
      fun hc => splitLines_no_nl hl (mem_of_mem_stripChars hc)⟩

/-- Claim C2. The pipeline is idempotent: whenever extract-group-order on a
file text succeeds and produces the canonical output `out`, running
extract, group and order again on `out` (with the same overrides and the
same resolution oracle) reproduces `out` exactly, and the diff reporter
compares the re-extracted raw block against it and reports no change. -/
theorem c2_pipeline_idempotent (text : String) (ov : Option Override) (env : Env)
    (out : String) (h : run_pipeline text ov env = some out) :
    run_pipeline out ov env = some out ∧
    verify_imports_order (get_import_lines (splitLines out)).1 out = 0 := by
  simp only [run_pipeline] at h
  obtain ⟨g, hg, h⟩ := Option.bind_eq_some.mp h
  obtain ⟨⟨d, out'⟩, hord, hout'⟩ := Option.map_eq_some'.mp h
  have hout2 : out' = out := hout'
  rw [hout2] at hord
  set st1 := (get_import_lines (splitLines text)).2 with hst1
  have hparse : ∀ s ∈ st1, (get_module_name_from_import s).isSome = true := by
    have hg2 := hg
    unfold construct_import_dict at hg2
    obtain ⟨il, hil, _⟩ := Option.map_eq_some'.mp hg2
    exact parse_ok_of_construct_aux hil
  have hgval : g = ⟨optOf (pick ov env Category.standard st1),
      optOf (pick ov env Category.third_party st1),
      optOf (pick ov env Category.loc st1)⟩ := by
    have hg2 := hg
    unfold construct_import_dict at hg2
    rw [construct_aux_spec ov env _ ⟨[], [], []⟩ hparse] at hg2
    simp only [Option.map_some'] at hg2
    have h3 := Option.some.inj hg2
    rw [← h3]
    simp
  rw [hgval] at hord
  unfold get_ordered_imports at hord
  obtain ⟨S, hS, hord⟩ := Option.bind_eq_some.mp hord
  obtain ⟨T, hT, hord⟩ := Option.bind_eq_some.mp hord
  obtain ⟨L, hL, hord⟩ := Option.bind_eq_some.mp hord
  have hpair := Option.some.inj hord
  have hout : out = joinLines "\n\n" ([S, T, L].filter (fun b => b != "")) :=
    (congrArg Prod.snd hpair).symm
  obtain ⟨hSval, hSkeys⟩ := slot_spec hS
  obtain ⟨hTval, hTkeys⟩ := slot_spec hT
  obtain ⟨hLval, hLkeys⟩ := slot_spec hL
  set sS := (pick ov env Category.standard st1).insertionSort stmtRel with hsS
  set sT := (pick ov env Category.third_party st1).insertionSort stmtRel with hsT
  set sL := (pick ov env Category.loc st1).insertionSort stmtRel with hsL
  have hsp : ∀ x ∈ st1, isImportLine x = true ∧ pyStrip x = x ∧ x ≠ "" ∧ '\n' ∉ x.data := by
    rw [hst1]
    exact fun x hx => stmts_prop hx
  have hmemS : ∀ x ∈ sS, x ∈ st1 ∧ lineCat ov env x = some Category.standard := by
    intro x hx
    rw [hsS] at hx
    exact mem_pick ((List.mem_insertionSort stmtRel).mp hx)
  have hmemT : ∀ x ∈ sT, x ∈ st1 ∧ lineCat ov env x = some Category.third_party := by
    intro x hx
    rw [hsT] at hx
    exact mem_pick ((List.mem_insertionSort stmtRel).mp hx)
  have hmemL : ∀ x ∈ sL, x ∈ st1 ∧ lineCat ov env x = some Category.loc := by
    intro x hx
    rw [hsL] at hx
    exact mem_pick ((List.mem_insertionSort stmtRel).mp hx)
  have hfilter_eq : [S, T, L].filter (fun b => b != "")
      = ([sS, sT, sL].filter (fun g' => !g'.isEmpty)).map (joinLines "\n") := by
    rw [hSval, hTval, hLval]
    rw [show [joinLines "\n" sS, joinLines "\n" sT, joinLines "\n" sL]
        = [sS, sT, sL].map (joinLines "\n") from rfl]
    rw [List.filter_map]
    congr 1
    apply List.filter_congr
    intro g' hg'
    simp only [Function.comp_apply]
    by_cases hnil : g' = []
    · subst hnil
      rfl
    · have hjne : joinLines "\n" g' ≠ "" := by
        apply joinLines_ne_empty hnil
        intro x hx
        simp only [List.mem_cons, List.not_mem_nil, or_false] at hg'
        rcases hg' with rfl | rfl | rfl
        · exact (hsp x (hmemS x hx).1).2.2.1
        · exact (hsp x (hmemT x hx).1).2.2.1
        · exact (hsp x (hmemL x hx).1).2.2.1
      cases g' with
      | nil => exact absurd rfl hnil
      | cons a as => simp [hjne]
  set gss := [sS, sT, sL].filter (fun g' => !g'.isEmpty) with hgssdef
  have hgss_sub : ∀ g' ∈ gss, g' ∈ [sS, sT, sL] ∧ g' ≠ [] := by
    intro g' hg'
    refine ⟨List.mem_of_mem_filter hg', ?_⟩
    have h2 := List.of_mem_filter hg'
    intro hnil
    rw [hnil] at h2
    simp at h2
  have hgmem : ∀ g' ∈ gss, ∀ x ∈ g', x ∈ st1 := by
    intro g' hg' x hx
    have h2 := (hgss_sub g' hg').1
    simp only [List.mem_cons, List.not_mem_nil, or_false] at h2
    rcases h2 with rfl | rfl | rfl
    · exact (hmemS x hx).1
    · exact (hmemT x hx).1
    · exact (hmemL x hx).1
  have hne' : ∀ g' ∈ gss, g' ≠ [] := fun g' hg' => (hgss_sub g' hg').2
  have hgood2 : ∀ g' ∈ gss, g' ≠ [] ∧ ∀ x ∈ g', x ≠ "" :=
    fun g' hg' => ⟨hne' g' hg', fun x hx => (hsp x (hgmem g' hg' x hx)).2.2.1⟩
  have hnlw : ∀ x ∈ weave gss, '\n' ∉ x.data := by
    intro x hx
    rcases mem_weave hx with rfl | ⟨g', hg', hxg⟩
    · simp
    · exact (hsp x (hgmem g' hg' x hxg)).2.2.2
  have houtw : out = joinLines "\n" (weave gss) := by
    rw [hout, hfilter_eq, join2_eq_join1_weave hne']
  by_cases hgssnil : gss = []
  · have hout0 : out = "" := by
      rw [houtw, hgssnil]
      rfl
    subst hout0
    exact ⟨rfl, rfl⟩
  · have hlines2 : splitLines out = weave gss := by
      rw [houtw]
      exact splitLines_joinLines (weave_ne_nil hgssnil hne') hnlw
    have hwmem : ∀ l ∈ weave gss, l = "" ∨ (isImportLine l = true ∧ pyStrip l = l) := by
      intro l hl
      rcases mem_weave hl with rfl | ⟨g', hg', hx⟩
      · exact Or.inl rfl
      · have hp := hsp l (hgmem g' hg' l hx)
        exact Or.inr ⟨hp.1, hp.2.1⟩
    have hext : extractAux (weave gss) [] [] = weave gss :=
      extract_canonical hwmem (weave_head_ne hgood2) (weave_last_ne hgood2)
        (weave_ne_nil hgssnil hne')
    have hraw2 : (get_import_lines (splitLines out)).1 = out := by
      show joinLines "\n" (extractAux (splitLines out) [] []) = out
      rw [hlines2, hext, ← houtw]
    have hstmts2 : (get_import_lines (splitLines out)).2 = sS ++ (sT ++ sL) := by
      show (extractAux (splitLines out) [] []).filter (fun i => i != "") = _
      rw [hlines2, hext,
        weave_filter (fun g' hg' x hx => (hsp x (hgmem g' hg' x hx)).2.2.1),
        hgssdef, flatten_filter_ne_nil]
      simp
    have hparse2 : ∀ s ∈ sS ++ (sT ++ sL),
        (get_module_name_from_import s).isSome = true := by
      intro s hs
      apply hparse
      rcases List.mem_append.mp hs with h1 | h1
      · exact (hmemS s h1).1
      · rcases List.mem_append.mp h1 with h2 | h2
        · exact (hmemT s h2).1
        · exact (hmemL s h2).1
    have hfilc : ∀ (c c' : Category) (gl : List String),
        (∀ x ∈ gl, lineCat ov env x = some c) →
        gl.filter (fun s => decide (lineCat ov env s = some c')) =
          if c = c' then gl else [] := by
      intro c c' gl hgl
      by_cases hcc : c = c'
      · subst hcc
        rw [if_pos rfl, List.filter_eq_self]
        intro a ha
        simp [hgl a ha]
      · rw [if_neg hcc, List.filter_eq_nil_iff]
        intro a ha
        simp [hgl a ha, hcc]
    have hmemS' : ∀ x ∈ sS, lineCat ov env x = some Category.standard :=
      fun x hx => (hmemS x hx).2
    have hmemT' : ∀ x ∈ sT, lineCat ov env x = some Category.third_party :=
      fun x hx => (hmemT x hx).2
    have hmemL' : ∀ x ∈ sL, lineCat ov env x = some Category.loc :=
      fun x hx => (hmemL x hx).2
    have hpickS2 : pick ov env Category.standard (sS ++ (sT ++ sL)) = sS := by
      rw [pick, List.filter_append, List.filter_append,
        hfilc _ _ _ hmemS', hfilc _ _ _ hmemT', hfilc _ _ _ hmemL']
      simp
    have hpickT2 : pick ov env Category.third_party (sS ++ (sT ++ sL)) = sT := by
      rw [pick, List.filter_append, List.filter_append,
        hfilc _ _ _ hmemS', hfilc _ _ _ hmemT', hfilc _ _ _ hmemL']
      simp
    have hpickL2 : pick ov env Category.loc (sS ++ (sT ++ sL)) = sL := by
      rw [pick, List.filter_append, List.filter_append,
        hfilc _ _ _ hmemS', hfilc _ _ _ hmemT', hfilc _ _ _ hmemL']
      simp
    have hcon2 : construct_import_dict (sS ++ (sT ++ sL)) ov env
        = some ⟨optOf sS, optOf sT, optOf sL⟩ := by
      unfold construct_import_dict
      rw [construct_aux_spec ov env _ ⟨[], [], []⟩ hparse2]
      simp [hpickS2, hpickT2, hpickL2]
    have hordS : processVal (optOf sS) = some S := by
      rw [hSval, hsS]
      exact slot_resort hSkeys
    have hordT : processVal (optOf sT) = some T := by
      rw [hTval, hsT]
      exact slot_resort hTkeys
    have hordL : processVal (optOf sL) = some L := by
      rw [hLval, hsL]
      exact slot_resort hLkeys
    have hord2 : get_ordered_imports ⟨optOf sS, optOf sT, optOf sL⟩
        = some (⟨some (PyVal.str S), some (PyVal.str T), some (PyVal.str L)⟩,
            joinLines "\n\n" ([S, T, L].filter (fun b => b != ""))) := by
      simp only [get_ordered_imports]
      rw [hordS, hordT, hordL]
      rfl
    constructor
    · simp only [run_pipeline]
      rw [hstmts2, hcon2]
      show (get_ordered_imports ⟨optOf sS, optOf sT, optOf sL⟩).map (fun r => r.2)
        = some out
      rw [hord2]
      simp only [Option.map_some']
      exact congrArg some hout.symm
    · rw [verify_imports_order, hraw2, if_pos rfl]

theorem c2_witness :
    run_pipeline "import b\nimport a\n" none (fun _ => some "built-in")
      = some "import a\nimport b" ∧
    (run_pipeline "import a\nimport b" none (fun _ => some "built-in")
      = some "import a\nimport b" ∧
    verify_imports_order
      (get_import_lines (splitLines "import a\nimport b")).1 "import a\nimport b" = 0) :=
  ⟨rfl, c2_pipeline_idempotent "import b\nimport a\n" none (fun _ => some "built-in")
    "import a\nimport b" rfl⟩

end CheckImportOrder
